import Mathlib

/-!
Verification of `src/MEG/tools.py`, a module of analysis utilities for a
neuroscience pipeline: power-spectrum model fitting (`power_spectrum_fit`),
effect sizes (`cohend`), post-hoc Tukey annotation (`tukeyhsd`) and brain
volume rendering (`plot_MEG_volumes`).

Real-valued numpy arithmetic is embedded over `ℝ` (lists of reals for
arrays); quantities that only ever feed decidable comparisons and string
formatting (p-values, axis limits) are embedded over `ℚ` so that concrete
instances can be evaluated.  External library calls (FOOOF, statsmodels,
nilearn) are modelled by their outputs, which the functions under
verification consume.
-/

noncomputable section

/-! ## SpectrumFitter: `power_spectrum_fit` (tools.py lines 27-78) -/

/-- Aperiodic-only curve, line 69 of tools.py:
`ap_fit = np.power(10,ap_params[0])*1./(np.power(fx,ap_params[1]))`. -/
def ap_fit (fx : List ℝ) (offset exponent : ℝ) : List ℝ :=
  fx.map (fun f => (10 : ℝ) ^ offset * 1 / f ^ exponent)

/-- The loop of lines 72-75 of tools.py: `ys = np.zeros_like(fx)` followed by
`ys = ys + hgt * np.exp(-(fx-ctr)**2 / (2*wid**2))` for each Gaussian peak
`(ctr, hgt, wid)` in `gauss_params`; elementwise over the frequency axis. -/
def gauss_accum (fx : List ℝ) (gauss_params : List (ℝ × ℝ × ℝ)) : List ℝ :=
  gauss_params.foldl
    (fun ys g =>
      List.zipWith (fun y f => y + g.2.1 * Real.exp (-(f - g.1) ^ 2 / (2 * g.2.2 ^ 2))) ys fx)
    (fx.map (fun _ => 0))

/-- `power_spectrum_fit` (tools.py lines 27-78).  The external FOOOF call
`fm.get_results()` is modelled by its output `fitResult`: `some` of the
aperiodic parameters `(offset, exponent)` together with the Gaussian peak
triples when `ap_params` is a numeric array, `none` otherwise.  On the
`none` path the Python function leaves `sum_signal` unbound, so
`return [ap_params,sum_signal]` raises `UnboundLocalError` and the call has
no well-defined result; that path is embedded as `none`.  On success the
returned pair is `[ap_params, sum_signal]` with
`sum_signal = np.power(10,ys)*ap_fit` (line 76). -/
def power_spectrum_fit (fx : List ℝ)
    (fitResult : Option ((ℝ × ℝ) × List (ℝ × ℝ × ℝ))) :
    Option ((ℝ × ℝ) × List ℝ) :=
  match fitResult with
  | some ((offset, exponent), gauss_params) =>
      some ((offset, exponent),
        List.zipWith (fun y a => (10 : ℝ) ^ y * a)
          (gauss_accum fx gauss_params) (ap_fit fx offset exponent))
  | none => none

/-! ## Effect size: `cohend` (tools.py lines 80-103) -/

/-- `np.mean` on a 1-D array. -/
def npMean (l : List ℝ) : ℝ := l.sum / l.length

/-- `np.var(d, ddof=1)`: sample variance with the `n-1` denominator. -/
def npVar (l : List ℝ) : ℝ :=
  (l.map (fun x => (x - npMean l) ^ 2)).sum / ((l.length : ℝ) - 1)

/-- `cohend` (tools.py lines 80-103): pooled-standard-deviation effect size
`(u1 - u2) / s` with `s = sqrt(((n1-1)*s1 + (n2-1)*s2) / (n1+n2-2))`. -/
def cohend (d1 d2 : List ℝ) : ℝ :=
  let n1 : ℝ := d1.length
  let n2 : ℝ := d2.length
  let s1 := npVar d1
  let s2 := npVar d2
  let s := Real.sqrt (((n1 - 1) * s1 + (n2 - 1) * s2) / (n1 + n2 - 2))
  let u1 := npMean d1
  let u2 := npMean d2
  (u1 - u2) / s

/-! ## Post-hoc annotation: `tukeyhsd` (tools.py lines 105-166)

p-values (produced by the external `pairwise_tukeyhsd`, one per unordered
group pair in row-major order) and axis limits are embedded over `ℚ`. -/

/-- Python `"%.2f"` formatting of a rational: round `|q|` to two decimal
places (nearest hundredth) and print sign, integer part, `.`, and a
two-digit fraction. -/
def fmt2 (q : ℚ) : String :=
  let n : ℕ := (round (|q| * 100) : ℤ).toNat
  let s := Nat.repr (n / 100) ++ "." ++
      (if n % 100 < 10 then "0" ++ Nat.repr (n % 100) else Nat.repr (n % 100))
  if q < 0 then "-" ++ s else s

/-- The label construction of tools.py lines 149-154: an `if/elif/else` on
the p-value selecting among three formats, with Cohen's d always printed to
two decimals. -/
def star_label (pvalue dvalue : ℚ) : String :=
  if pvalue ≥ 0.01 then
    "p = " ++ fmt2 pvalue ++ " d = " ++ fmt2 dvalue
  else if pvalue ≥ 0.001 ∧ pvalue < 0.01 then
    "p < 0.01 d = " ++ fmt2 dvalue
  else
    "p < 0.001 d = " ++ fmt2 dvalue

/-- The nested loops of tools.py lines 135-136
(`for i in np.arange(0,len(x)): for j in np.arange(i+1,len(x))`), flattened:
the unordered pairs `(i, j)`, `i < j`, of `n` groups in row-major order.
The running `index` of the Python loop is the position in this list. -/
def pairsList (n : ℕ) : List (ℕ × ℕ) :=
  (List.range n).flatMap (fun i => (List.range' (i + 1) (n - (i + 1))).map (fun j => (i, j)))

/-- `np.argsort(tukey.pvalues)` (tools.py line 130), modelled as a stable
argsort: indices of the p-value array ordered by ascending p-value, equal
p-values kept in index order (the tie behaviour of a stable ascending
sort, which the spec of this routine relies on). -/
def argsort (ps : List ℚ) : List ℕ :=
  (List.range ps.length).mergeSort (fun a b =>
    decide (ps.getD a 0 < ps.getD b 0 ∨ (ps.getD a 0 = ps.getD b 0 ∧ a ≤ b)))

/-- `pos_p_values = np.argsort(tukey.pvalues)[0:3]` (tools.py line 130):
the positions of the three smallest p-values. -/
def pos_p_values (ps : List ℚ) : List ℕ := (argsort ps).take 3

/-- One annotation emitted by the loop body (tools.py lines 137-161): the
annotated pair `(i, j)`, the running enumeration `index`, and the y
coordinate `height + scale` of the horizontal connecting line, where
`height = Vax_lims[1]` and `scale = 0.2 * index * (Vax_lims[1] - Vax_lims[0])`. -/
structure TukeyAnnot where
  i : ℕ
  j : ℕ
  index : ℕ
  lineY : ℚ
  deriving DecidableEq

/-- The annotations drawn by `tukeyhsd` (tools.py lines 133-161) for `n`
groups, given the p-values `ps` of the external Tukey test and the axis
limits `lims = Vax.get_ylim()`: the loop visits the pairs in row-major
order with a running `index` and draws only when `index in pos_p_values`. -/
def tukeyhsd_annots (n : ℕ) (ps : List ℚ) (lims : ℚ × ℚ) : List TukeyAnnot :=
  ((pairsList n).enum.filter (fun kp => decide (kp.1 ∈ pos_p_values ps))).map
    (fun kp =>
      { i := kp.2.1, j := kp.2.2, index := kp.1,
        lineY := lims.2 + 0.2 * (kp.1 : ℚ) * (lims.2 - lims.1) })

/-! ## SurfaceRenderer: `plot_MEG_volumes` (tools.py lines 168-227)

The 4D atlas is modelled as a family of flattened voxel lists
`atlas : ℕ → List ℝ` (one volume per ROI) and the per-region scalar data as
`diff : ℕ → ℝ`. -/

/-- `np.max` of a (flattened, nonempty) volume. -/
def npMax (l : List ℝ) : ℝ := l.foldl max (l.headD 0)

/-- tools.py line 197: the ROI volume scaled by
`diff[ROI] / np.max(brain_map.get_fdata())` — per-region normalization
against the volume's own peak intensity. -/
def scaled_volume (atlas : ℕ → List ℝ) (diff : ℕ → ℝ) (ROI : ℕ) : List ℝ :=
  (atlas ROI).map (fun v => v * (diff ROI / npMax (atlas ROI)))

/-- The accumulation loop of tools.py lines 193-203 over the first `n`
ROIs: `result_img = brain_map` at `ROI = 0`, elementwise
`result_img + brain_map` afterwards.  The source runs it with `n = 38`. -/
def combined_volume_upto (atlas : ℕ → List ℝ) (diff : ℕ → ℝ) (n : ℕ) : List ℝ :=
  (List.range n).foldl
    (fun result ROI =>
      if ROI > 0 then List.zipWith (· + ·) result (scaled_volume atlas diff ROI)
      else scaled_volume atlas diff ROI)
    []

/-- The combined 3D volume of `plot_MEG_volumes` (tools.py lines 193-203). -/
def combined_volume (atlas : ℕ → List ℝ) (diff : ℕ → ℝ) : List ℝ :=
  combined_volume_upto atlas diff 38

/-! ## Helper lemmas -/

lemma zipWith_getD {α β γ : Type} (f : α → β → γ) (l₁ : List α) (l₂ : List β)
    (k : ℕ) (h₁ : k < l₁.length) (h₂ : k < l₂.length) (dα : α) (dβ : β) (dγ : γ) :
    (List.zipWith f l₁ l₂).getD k dγ = f (l₁.getD k dα) (l₂.getD k dβ) := by
  simp [List.getD_eq_getElem?_getD, List.getElem?_zipWith,
    List.getElem?_eq_getElem, h₁, h₂]

lemma map_getD {α β : Type} (f : α → β) (l : List α) (k : ℕ) (h : k < l.length)
    (dα : α) (dβ : β) : (l.map f).getD k dβ = f (l.getD k dα) := by
  simp [List.getD_eq_getElem?_getD, List.getElem?_eq_getElem, h]

lemma gauss_loop_length (fx : List ℝ) (gs : List (ℝ × ℝ × ℝ)) :
    ∀ acc : List ℝ, acc.length = fx.length →
      (gs.foldl (fun ys g =>
        List.zipWith (fun y f => y + g.2.1 * Real.exp (-(f - g.1) ^ 2 / (2 * g.2.2 ^ 2))) ys fx)
        acc).length = fx.length := by
  induction gs with
  | nil => intro acc h; exact h
  | cons g gs ih =>
      intro acc h
      simp only [List.foldl_cons]
      exact ih _ (by rw [List.length_zipWith, h, min_self])

lemma gauss_accum_length (fx : List ℝ) (gs : List (ℝ × ℝ × ℝ)) :
    (gauss_accum fx gs).length = fx.length :=
  gauss_loop_length fx gs _ (by simp)

lemma gauss_loop_getD (fx : List ℝ) (k : ℕ) (hk : k < fx.length)
    (gs : List (ℝ × ℝ × ℝ)) :
    ∀ acc : List ℝ, acc.length = fx.length →
      (gs.foldl (fun ys g =>
        List.zipWith (fun y f => y + g.2.1 * Real.exp (-(f - g.1) ^ 2 / (2 * g.2.2 ^ 2))) ys fx)
        acc).getD k 0
      = acc.getD k 0 +
        (gs.map (fun g => g.2.1 * Real.exp (-(fx.getD k 0 - g.1) ^ 2 / (2 * g.2.2 ^ 2)))).sum := by
  induction gs with
  | nil => intro acc h; simp
  | cons g gs ih =>
      intro acc h
      simp only [List.foldl_cons]
      rw [ih _ (by rw [List.length_zipWith, h, min_self])]
      rw [zipWith_getD _ _ _ _ (h ▸ hk) hk 0 0 0]
      simp [add_assoc]

lemma gauss_accum_getD (fx : List ℝ) (k : ℕ) (hk : k < fx.length)
    (gs : List (ℝ × ℝ × ℝ)) :
    (gauss_accum fx gs).getD k 0
      = (gs.map (fun g => g.2.1 * Real.exp (-(fx.getD k 0 - g.1) ^ 2 / (2 * g.2.2 ^ 2)))).sum := by
  have h := gauss_loop_getD fx k hk gs (fx.map (fun _ => 0)) (by simp)
  rw [gauss_accum, h, map_getD _ _ _ hk 0 0, zero_add]

/-! ## C2, C3, C8: `power_spectrum_fit` -/

/-- C2: for every frequency axis and every successful fit with aperiodic
parameters `(offset, exponent)` and Gaussian peaks, the reconstructed
spectrum equals, elementwise, `10 ^ (Σ peaks hgt * exp(-(f-ctr)²/(2·wid²)))`
times the aperiodic curve `10 ^ offset / f ^ exponent`. -/
theorem power_spectrum_fit_reconstruction (fx : List ℝ) (offset exponent : ℝ)
    (gauss_params : List (ℝ × ℝ × ℝ)) (k : ℕ) (hk : k < fx.length) :
    ∃ S : List ℝ,
      power_spectrum_fit fx (some ((offset, exponent), gauss_params))
          = some ((offset, exponent), S) ∧
      S.getD k 0 =
        (10 : ℝ) ^ ((gauss_params.map
            (fun g => g.2.1 * Real.exp (-(fx.getD k 0 - g.1) ^ 2 / (2 * g.2.2 ^ 2)))).sum)
          * ((10 : ℝ) ^ offset / (fx.getD k 0) ^ exponent) := by
  refine ⟨_, rfl, ?_⟩
  rw [zipWith_getD _ _ _ _ ((gauss_accum_length fx gauss_params).symm ▸ hk)
      (by simpa [ap_fit] using hk) 0 0 0]
  rw [gauss_accum_getD fx k hk]
  simp only [ap_fit]
  rw [map_getD _ _ _ hk 0 0, mul_one]

/-- C3: when the external fitter does not return a numeric aperiodic result,
`power_spectrum_fit` has no well-defined result (the Python code leaves
`sum_signal` unset and the return statement fails); the model returns
`none`. -/
theorem power_spectrum_fit_failure (fx : List ℝ) :
    power_spectrum_fit fx none = none := rfl

/-- C8: on success the reconstructed spectrum has the same length as the
frequency axis and, for strictly positive frequencies, strictly positive
entries. -/
theorem power_spectrum_fit_success_shape (fx : List ℝ) (offset exponent : ℝ)
    (gauss_params : List (ℝ × ℝ × ℝ)) (hpos : ∀ f ∈ fx, 0 < f) :
    ∃ S : List ℝ,
      power_spectrum_fit fx (some ((offset, exponent), gauss_params))
          = some ((offset, exponent), S) ∧
      S.length = fx.length ∧ ∀ y ∈ S, 0 < y := by
  refine ⟨_, rfl, ?_, ?_⟩
  · rw [List.length_zipWith, gauss_accum_length]
    simp [ap_fit]
  · intro y hy
    rw [List.mem_iff_getElem] at hy
    obtain ⟨k, hk, hEq⟩ := hy
    rw [List.getElem_zipWith] at hEq
    have hk2 : k < (ap_fit fx offset exponent).length := by
      rw [List.length_zipWith] at hk; omega
    subst hEq
    have h10 : (0 : ℝ) < 10 := by norm_num
    apply mul_pos (Real.rpow_pos_of_pos h10 _)
    have hk3 : k < fx.length := by simpa [ap_fit] using hk2
    simp only [ap_fit, List.getElem_map]
    have hfx : 0 < fx[k] := hpos _ (List.getElem_mem _)
    exact div_pos (by simpa using Real.rpow_pos_of_pos h10 offset)
      (Real.rpow_pos_of_pos hfx _)

/-- Witness for C2 at `fx = [1]`, no peaks, `offset = exponent = 0`. -/
theorem power_spectrum_fit_reconstruction_witness :
    0 < ([1] : List ℝ).length ∧
    ∃ S : List ℝ,
      power_spectrum_fit [1] (some ((0, 0), [])) = some ((0, 0), S) ∧
      S.getD 0 0 =
        (10 : ℝ) ^ ((List.map
            (fun g : ℝ × ℝ × ℝ =>
              g.2.1 * Real.exp (-(([1] : List ℝ).getD 0 0 - g.1) ^ 2 / (2 * g.2.2 ^ 2))) []).sum)
          * ((10 : ℝ) ^ (0 : ℝ) / (([1] : List ℝ).getD 0 0) ^ (0 : ℝ)) :=
  ⟨by norm_num, power_spectrum_fit_reconstruction [1] 0 0 [] 0 (by norm_num)⟩

/-- Witness for C8 at `fx = [1]`. -/
theorem power_spectrum_fit_success_shape_witness :
    (∀ f ∈ ([1] : List ℝ), 0 < f) ∧
    ∃ S : List ℝ,
      power_spectrum_fit [1] (some ((0, 0), [])) = some ((0, 0), S) ∧
      S.length = ([1] : List ℝ).length ∧ ∀ y ∈ S, 0 < y :=
  ⟨by norm_num, power_spectrum_fit_success_shape [1] 0 0 [] (by norm_num)⟩

/-! ## C4, C5: `cohend` -/

/-- C4: `cohend` computes `(mean(a) - mean(b)) / pooled_sd` with the pooled
standard deviation built from `n-1`-denominator sample variances (spelled
out on the right-hand side), and on the concrete samples `[1..5]`,
`[6..10]` it equals `-5 / sqrt 2.5`. -/
theorem cohend_formula :
    (∀ d1 d2 : List ℝ,
      cohend d1 d2 =
        (d1.sum / d1.length - d2.sum / d2.length) /
          Real.sqrt
            ((((d1.length : ℝ) - 1) *
                ((d1.map (fun x => (x - d1.sum / d1.length) ^ 2)).sum /
                  ((d1.length : ℝ) - 1)) +
              ((d2.length : ℝ) - 1) *
                ((d2.map (fun x => (x - d2.sum / d2.length) ^ 2)).sum /
                  ((d2.length : ℝ) - 1))) /
              ((d1.length : ℝ) + (d2.length : ℝ) - 2))) ∧
    cohend [1, 2, 3, 4, 5] [6, 7, 8, 9, 10] = -5 / Real.sqrt (5 / 2) := by
  constructor
  · intro d1 d2
    simp [cohend, npMean, npVar]
  · have harg :
        (((([1, 2, 3, 4, 5] : List ℝ).length : ℝ) - 1) * npVar [1, 2, 3, 4, 5] +
            ((([6, 7, 8, 9, 10] : List ℝ).length : ℝ) - 1) * npVar [6, 7, 8, 9, 10]) /
          ((([1, 2, 3, 4, 5] : List ℝ).length : ℝ) +
            (([6, 7, 8, 9, 10] : List ℝ).length : ℝ) - 2) = 5 / 2 := by
      simp [npVar, npMean]
      norm_num
    simp only [cohend]
    rw [harg]
    have hmean1 : npMean [1, 2, 3, 4, 5] = 3 := by simp [npMean]; norm_num
    have hmean2 : npMean [6, 7, 8, 9, 10] = 8 := by simp [npMean]; norm_num
    rw [hmean1, hmean2]
    norm_num

/-- C5: `cohend` is antisymmetric wherever it is defined (more than two
samples in total and nonzero pooled variance). -/
theorem cohend_antisymm (d1 d2 : List ℝ)
    (hn : 2 < d1.length + d2.length)
    (hvar : (((d1.length : ℝ) - 1) * npVar d1 + ((d2.length : ℝ) - 1) * npVar d2) /
        ((d1.length : ℝ) + (d2.length : ℝ) - 2) ≠ 0) :
    cohend d1 d2 = -cohend d2 d1 := by
  simp only [cohend]
  have hsym : (((d2.length : ℝ) - 1) * npVar d2 + ((d1.length : ℝ) - 1) * npVar d1) /
      ((d2.length : ℝ) + (d1.length : ℝ) - 2)
      = (((d1.length : ℝ) - 1) * npVar d1 + ((d2.length : ℝ) - 1) * npVar d2) /
      ((d1.length : ℝ) + (d2.length : ℝ) - 2) := by ring_nf
  rw [hsym, ← neg_div, neg_sub]

/-- Witness for C5 on the spec's concrete samples. -/
theorem cohend_antisymm_witness :
    (2 < ([1, 2, 3, 4, 5] : List ℝ).length + ([6, 7, 8, 9, 10] : List ℝ).length) ∧
    ((((([1, 2, 3, 4, 5] : List ℝ).length : ℝ) - 1) * npVar [1, 2, 3, 4, 5] +
        ((([6, 7, 8, 9, 10] : List ℝ).length : ℝ) - 1) * npVar [6, 7, 8, 9, 10]) /
      ((([1, 2, 3, 4, 5] : List ℝ).length : ℝ) +
        (([6, 7, 8, 9, 10] : List ℝ).length : ℝ) - 2) ≠ 0) ∧
    cohend [1, 2, 3, 4, 5] [6, 7, 8, 9, 10] = -cohend [6, 7, 8, 9, 10] [1, 2, 3, 4, 5] := by
  have h1 : 2 < ([1, 2, 3, 4, 5] : List ℝ).length + ([6, 7, 8, 9, 10] : List ℝ).length := by
    norm_num
  have h2 : (((([1, 2, 3, 4, 5] : List ℝ).length : ℝ) - 1) * npVar [1, 2, 3, 4, 5] +
        ((([6, 7, 8, 9, 10] : List ℝ).length : ℝ) - 1) * npVar [6, 7, 8, 9, 10]) /
      ((([1, 2, 3, 4, 5] : List ℝ).length : ℝ) +
        (([6, 7, 8, 9, 10] : List ℝ).length : ℝ) - 2) ≠ 0 := by
    simp [npVar, npMean]
    norm_num
  exact ⟨h1, h2, cohend_antisymm _ _ h1 h2⟩

/-! ## C6: label banding -/

/-- C6: the rendered label is `p = X.XX d = Y.YY` when `p ≥ 0.01`,
`p < 0.01 d = Y.YY` when `0.001 ≤ p < 0.01`, and `p < 0.001 d = Y.YY`
when `p < 0.001`, with Cohen's d always formatted to two decimals. -/
theorem star_label_bands (p d : ℚ) :
    (0.01 ≤ p → star_label p d = "p = " ++ fmt2 p ++ " d = " ++ fmt2 d) ∧
    (0.001 ≤ p ∧ p < 0.01 → star_label p d = "p < 0.01 d = " ++ fmt2 d) ∧
    (p < 0.001 → star_label p d = "p < 0.001 d = " ++ fmt2 d) := by
  refine ⟨fun h1 => ?_, fun h2 => ?_, fun h3 => ?_⟩
  · rw [star_label, if_pos h1]
  · rw [star_label, if_neg (by exact fun h => absurd h2.2 (not_lt.mpr h)), if_pos h2]
  · rw [star_label, if_neg (by intro h; linarith), if_neg (by intro h; linarith [h.1])]

lemma fmt2_half : fmt2 (1 / 2) = "0.50" := by
  rw [fmt2]
  have h1 : ¬((1 : ℚ) / 2 < 0) := by norm_num
  rw [if_neg h1]
  have habs : |(1 : ℚ) / 2| * 100 = 50 := by
    rw [abs_of_nonneg (by norm_num : (0 : ℚ) ≤ 1 / 2)]
    norm_num
  have h2 : (round (|(1 : ℚ) / 2| * 100) : ℤ).toNat = 50 := by
    rw [habs]
    norm_num
    decide
  rw [h2]
  rfl

lemma fmt2_three_half : fmt2 (3 / 2) = "1.50" := by
  rw [fmt2]
  have h1 : ¬((3 : ℚ) / 2 < 0) := by norm_num
  rw [if_neg h1]
  have habs : |(3 : ℚ) / 2| * 100 = 150 := by
    rw [abs_of_nonneg (by norm_num : (0 : ℚ) ≤ 3 / 2)]
    norm_num
  have h2 : (round (|(3 : ℚ) / 2| * 100) : ℤ).toNat = 150 := by
    rw [habs]
    norm_num
    decide
  rw [h2]
  rfl

/-- Witness for C6: one concrete label in each band
(`p = 0.5`, `p = 0.005`, `p = 0.0005`, `d = 1.5`). -/
theorem star_label_bands_witness :
    ((0.01 : ℚ) ≤ 0.5 ∧ star_label 0.5 1.5 = "p = 0.50 d = 1.50") ∧
    (((0.001 : ℚ) ≤ 0.005 ∧ (0.005 : ℚ) < 0.01) ∧
      star_label 0.005 1.5 = "p < 0.01 d = 1.50") ∧
    ((0.0005 : ℚ) < 0.001 ∧ star_label 0.0005 1.5 = "p < 0.001 d = 1.50") := by
  have hhalf : (0.5 : ℚ) = 1 / 2 := by norm_num
  have hd : (1.5 : ℚ) = 3 / 2 := by norm_num
  refine ⟨⟨by norm_num, ?_⟩, ⟨⟨by norm_num, by norm_num⟩, ?_⟩, ⟨by norm_num, ?_⟩⟩
  · rw [(star_label_bands 0.5 1.5).1 (by norm_num), hhalf, hd, fmt2_half, fmt2_three_half]
    rfl
  · rw [(star_label_bands 0.005 1.5).2.1 ⟨by norm_num, by norm_num⟩, hd, fmt2_three_half]
    rfl
  · rw [(star_label_bands 0.0005 1.5).2.2 (by norm_num), hd, fmt2_three_half]
    rfl

/-! ## C9: `plot_MEG_volumes` combined volume -/

lemma combined_upto_spec (atlas : ℕ → List ℝ) (diff : ℕ → ℝ) (L : ℕ) :
    ∀ n : ℕ, 1 ≤ n → (∀ i < n, (atlas i).length = L) →
      (combined_volume_upto atlas diff n).length = L ∧
      ∀ v < L, (combined_volume_upto atlas diff n).getD v 0
        = ∑ i ∈ Finset.range n, (atlas i).getD v 0 * (diff i / npMax (atlas i)) := by
  intro n
  induction n with
  | zero => omega
  | succ m ih =>
      intro _ hL
      rcases Nat.eq_zero_or_pos m with hm | hm
      · subst hm
        have h0 : (atlas 0).length = L := hL 0 (by norm_num)
        have hbase : combined_volume_upto atlas diff 1 = scaled_volume atlas diff 0 := by
          simp [combined_volume_upto, List.range_succ]
        constructor
        · rw [hbase]
          simpa [scaled_volume] using h0
        · intro v hv
          rw [hbase, Finset.sum_range_one, scaled_volume, map_getD _ _ _ (h0 ▸ hv) 0 0]
      · have hL' : ∀ i < m, (atlas i).length = L := fun i hi => hL i (by omega)
        obtain ⟨ihlen, ihval⟩ := ih hm hL'
        have hm' : (atlas m).length = L := hL m (by omega)
        have hstep : combined_volume_upto atlas diff (m + 1)
            = List.zipWith (· + ·) (combined_volume_upto atlas diff m)
                (scaled_volume atlas diff m) := by
          simp only [combined_volume_upto, List.range_succ, List.foldl_append,
            List.foldl_cons, List.foldl_nil]
          rw [if_pos hm]
        have hslen : (scaled_volume atlas diff m).length = L := by
          simpa [scaled_volume] using hm'
        constructor
        · rw [hstep, List.length_zipWith, ihlen, hslen, min_self]
        · intro v hv
          rw [hstep, zipWith_getD _ _ _ _ (ihlen ▸ hv) (hslen ▸ hv) 0 0 0,
            ihval v hv, Finset.sum_range_succ]
          rw [scaled_volume, map_getD _ _ _ (hm' ▸ hv) 0 0]

/-- C9: the combined 3D volume of `plot_MEG_volumes` is the elementwise sum,
over the 38 regions, of each region's atlas volume scaled by
`diff[ROI] / max(that region's own volume)` — per-region normalization, not
a global maximum. -/
theorem combined_volume_spec (atlas : ℕ → List ℝ) (diff : ℕ → ℝ) (L : ℕ)
    (hL : ∀ i < 38, (atlas i).length = L) (v : ℕ) (hv : v < L) :
    (combined_volume atlas diff).getD v 0
      = ∑ i ∈ Finset.range 38, (atlas i).getD v 0 * (diff i / npMax (atlas i)) :=
  (combined_upto_spec atlas diff L 38 (by norm_num) hL).2 v hv

/-- Witness for C9: a one-voxel atlas with unit volumes. -/
theorem combined_volume_spec_witness :
    (∀ i < 38, ((fun _ : ℕ => ([1] : List ℝ)) i).length = 1) ∧ (0 < 1) ∧
    (combined_volume (fun _ => [1]) (fun _ => 1)).getD 0 0
      = ∑ i ∈ Finset.range 38,
          ((fun _ : ℕ => ([1] : List ℝ)) i).getD 0 0 *
            ((fun _ : ℕ => (1 : ℝ)) i / npMax ((fun _ : ℕ => ([1] : List ℝ)) i)) :=
  ⟨fun _ _ => rfl, by norm_num,
    combined_volume_spec (fun _ => [1]) (fun _ => 1) 1 (fun _ _ => rfl) 0 (by norm_num)⟩

/-! ## C1, C7, C10: `tukeyhsd` pair enumeration, selection and line placement -/

lemma list_sum_range_eq_finset (g : ℕ → ℕ) (m : ℕ) :
    ((List.range m).map g).sum = ∑ i ∈ Finset.range m, g i := by
  induction m with
  | zero => simp
  | succ k ih => rw [List.sum_range_succ, Finset.sum_range_succ, ih]

lemma pairsList_length (n : ℕ) : (pairsList n).length = n.choose 2 := by
  rw [pairsList, List.length_flatMap]
  have h1 : List.map
      (List.length ∘ fun i => (List.range' (i + 1) (n - (i + 1))).map (fun j => (i, j)))
      (List.range n) = (List.range n).map (fun i => n - (i + 1)) := by
    apply List.map_congr_left
    intro i _
    simp [List.length_range']
  rw [h1, list_sum_range_eq_finset]
  have h3 : ∑ i ∈ Finset.range n, (n - (i + 1)) = ∑ i ∈ Finset.range n, i := by
    rw [← Finset.sum_range_reflect (fun i => i) n]
    apply Finset.sum_congr rfl
    intro i hi
    rw [Finset.mem_range] at hi
    omega
  rw [h3, Finset.sum_range_id, Nat.choose_two_right]

lemma pairsList_pairwise (n : ℕ) :
    List.Pairwise (fun p q : ℕ × ℕ => p.1 < q.1 ∨ (p.1 = q.1 ∧ p.2 < q.2)) (pairsList n) := by
  rw [pairsList, List.pairwise_flatMap]
  constructor
  · intro i _
    rw [List.pairwise_map]
    exact (List.pairwise_lt_range' _ _).imp (fun hab => Or.inr ⟨rfl, hab⟩)
  · apply (List.pairwise_lt_range n).imp
    intro i i' hii x hx y hy
    rw [List.mem_map] at hx hy
    obtain ⟨j, _, rfl⟩ := hx
    obtain ⟨j', _, rfl⟩ := hy
    exact Or.inl hii

lemma pairsList_mem (n : ℕ) (p : ℕ × ℕ) : p ∈ pairsList n ↔ p.1 < p.2 ∧ p.2 < n := by
  rw [pairsList, List.mem_flatMap]
  constructor
  · rintro ⟨i, hi, hp⟩
    rw [List.mem_map] at hp
    obtain ⟨j, hj, rfl⟩ := hp
    rw [List.mem_range] at hi
    rw [List.mem_range'_1] at hj
    obtain ⟨hj1, hj2⟩ := hj
    exact ⟨by dsimp only; omega, by dsimp only; omega⟩
  · rintro ⟨h1, h2⟩
    refine ⟨p.1, List.mem_range.mpr (by omega), ?_⟩
    rw [List.mem_map]
    exact ⟨p.2, List.mem_range'_1.mpr ⟨by omega, by omega⟩, Prod.mk.eta⟩

lemma argsort_perm (ps : List ℚ) : (argsort ps).Perm (List.range ps.length) :=
  List.mergeSort_perm _ _

lemma argsort_nodup (ps : List ℚ) : (argsort ps).Nodup :=
  (argsort_perm ps).symm.nodup (List.nodup_range _)

lemma argsort_sorted (ps : List ℚ) :
    List.Pairwise
      (fun a b => ps.getD a 0 < ps.getD b 0 ∨ (ps.getD a 0 = ps.getD b 0 ∧ a ≤ b))
      (argsort ps) := by
  have htrans : ∀ a b c : ℕ,
      decide (ps.getD a 0 < ps.getD b 0 ∨ (ps.getD a 0 = ps.getD b 0 ∧ a ≤ b)) = true →
      decide (ps.getD b 0 < ps.getD c 0 ∨ (ps.getD b 0 = ps.getD c 0 ∧ b ≤ c)) = true →
      decide (ps.getD a 0 < ps.getD c 0 ∨ (ps.getD a 0 = ps.getD c 0 ∧ a ≤ c)) = true := by
    intro a b c hab hbc
    rw [decide_eq_true_iff] at hab hbc ⊢
    rcases hab with hab | ⟨hab, hab'⟩ <;> rcases hbc with hbc | ⟨hbc, hbc'⟩
    · exact Or.inl (hab.trans hbc)
    · exact Or.inl (lt_of_lt_of_eq hab hbc)
    · exact Or.inl (lt_of_eq_of_lt hab hbc)
    · exact Or.inr ⟨hab.trans hbc, hab'.trans hbc'⟩
  have htotal : ∀ a b : ℕ,
      (decide (ps.getD a 0 < ps.getD b 0 ∨ (ps.getD a 0 = ps.getD b 0 ∧ a ≤ b)) ||
        decide (ps.getD b 0 < ps.getD a 0 ∨ (ps.getD b 0 = ps.getD a 0 ∧ b ≤ a))) = true := by
    intro a b
    rw [Bool.or_eq_true, decide_eq_true_iff, decide_eq_true_iff]
    rcases lt_trichotomy (ps.getD a 0) (ps.getD b 0) with h | h | h
    · exact Or.inl (Or.inl h)
    · rcases le_total a b with hle | hle
      · exact Or.inl (Or.inr ⟨h, hle⟩)
      · exact Or.inr (Or.inr ⟨h.symm, hle⟩)
    · exact Or.inr (Or.inl h)
  have h := List.sorted_mergeSort htrans htotal (List.range ps.length)
  exact h.imp (fun hab => of_decide_eq_true hab)

lemma argsort_pairwise (ps : List ℚ) :
    List.Pairwise
      (fun a b => ps.getD a 0 < ps.getD b 0 ∨ (ps.getD a 0 = ps.getD b 0 ∧ a < b))
      (argsort ps) := by
  have h := (argsort_sorted ps).and (argsort_nodup ps)
  apply h.imp
  rintro a b ⟨hab, hne⟩
  rcases hab with hab | ⟨hab, hab'⟩
  · exact Or.inl hab
  · exact Or.inr ⟨hab, lt_of_le_of_ne hab' hne⟩

lemma mem_pos_p_values_lt (ps : List ℚ) (k : ℕ) (hk : k ∈ pos_p_values ps) :
    k < ps.length := by
  have h1 : k ∈ argsort ps := List.Sublist.mem hk (List.take_sublist 3 _)
  have h2 : k ∈ List.range ps.length := (argsort_perm ps).mem_iff.mp h1
  exact List.mem_range.mp h2

lemma tukey_annotated_iff (n : ℕ) (ps : List ℚ) (lims : ℚ × ℚ)
    (hlen : ps.length = (pairsList n).length) (k : ℕ) :
    (∃ a ∈ tukeyhsd_annots n ps lims, a.index = k) ↔ k ∈ pos_p_values ps := by
  constructor
  · rintro ⟨a, ha, rfl⟩
    rw [tukeyhsd_annots, List.mem_map] at ha
    obtain ⟨kp, hkp, rfl⟩ := ha
    rw [List.mem_filter] at hkp
    exact of_decide_eq_true hkp.2
  · intro hk
    have hklen : k < (pairsList n).length := hlen ▸ mem_pos_p_values_lt ps k hk
    obtain ⟨p, hp⟩ : ∃ p, (pairsList n)[k]? = some p :=
      ⟨_, List.getElem?_eq_getElem hklen⟩
    refine ⟨{ i := p.1, j := p.2, index := k,
              lineY := lims.2 + 0.2 * (k : ℚ) * (lims.2 - lims.1) }, ?_, rfl⟩
    rw [tukeyhsd_annots, List.mem_map]
    refine ⟨(k, p), ?_, rfl⟩
    rw [List.mem_filter]
    exact ⟨List.mem_enum_iff_getElem?.mpr hp, decide_eq_true hk⟩

lemma enumFrom_filter_fst_length {α : Type} (sel : List ℕ) :
    ∀ (l : List α) (s : ℕ),
      ((List.filter (fun kp => decide (kp.1 ∈ sel)) (l.enumFrom s)).length)
        = ((List.filter (fun k => decide (k ∈ sel)) (List.range' s l.length)).length) := by
  intro l
  induction l with
  | nil => intro s; rfl
  | cons a l ih =>
      intro s
      rw [List.enumFrom_cons, List.length_cons, List.range'_succ, List.filter_cons,
        List.filter_cons]
      by_cases h : s ∈ sel
      · simp [h, ih (s + 1)]
      · simp [h, ih (s + 1)]

lemma filter_mem_range_length (sel : List ℕ) (m : ℕ) (hnd : sel.Nodup)
    (hsub : ∀ k ∈ sel, k < m) :
    ((List.filter (fun k => decide (k ∈ sel)) (List.range m)).length) = sel.length := by
  have hperm : (List.filter (fun k => decide (k ∈ sel)) (List.range m)).Perm sel := by
    rw [List.perm_ext_iff_of_nodup (List.Nodup.filter _ (List.nodup_range m)) hnd]
    intro a
    rw [List.mem_filter, List.mem_range]
    constructor
    · rintro ⟨_, h⟩
      exact of_decide_eq_true h
    · intro h
      exact ⟨hsub a h, decide_eq_true h⟩
  exact hperm.length_eq

lemma tukey_annots_length (n : ℕ) (ps : List ℚ) (lims : ℚ × ℚ)
    (hlen : ps.length = (pairsList n).length) (h3 : 3 ≤ (pairsList n).length) :
    (tukeyhsd_annots n ps lims).length = 3 := by
  have hnd : (pos_p_values ps).Nodup :=
    List.Nodup.sublist (List.take_sublist 3 _) (argsort_nodup ps)
  have hsub : ∀ k ∈ pos_p_values ps, k < (pairsList n).length := by
    intro k hk
    exact hlen ▸ mem_pos_p_values_lt ps k hk
  have henum : (pairsList n).enum = (pairsList n).enumFrom 0 := rfl
  rw [tukeyhsd_annots, List.length_map, henum,
    enumFrom_filter_fst_length (pos_p_values ps) (pairsList n) 0,
    ← List.range_eq_range',
    filter_mem_range_length (pos_p_values ps) (pairsList n).length hnd hsub,
    pos_p_values, List.length_take]
  have harg : (argsort ps).length = (pairsList n).length := by
    rw [(argsort_perm ps).length_eq, List.length_range, hlen]
  rw [harg]
  exact min_eq_left h3

/-- C1: for at least two groups, the pairs are enumerated in row-major order
(`(pairsList n)` is lexicographically increasing and contains exactly the
pairs `i < j < n`), there are `C(n,2)` of them (hence `C(n,2)` p-values),
the modelled `np.argsort` is a permutation of the p-value positions that is
ascending with ties broken by enumeration order, the pairs selected for
annotation are exactly those whose enumeration index lies in the first 3
positions of that stable ascending sort, and when at least 3 pairs exist
exactly 3 are annotated. -/
theorem tukeyhsd_enumeration_selection (n : ℕ) (hn : 2 ≤ n) (ps : List ℚ)
    (lims : ℚ × ℚ) (hlen : ps.length = (pairsList n).length) :
    (pairsList n).length = n.choose 2 ∧
    List.Pairwise (fun p q : ℕ × ℕ => p.1 < q.1 ∨ (p.1 = q.1 ∧ p.2 < q.2)) (pairsList n) ∧
    (∀ p : ℕ × ℕ, p ∈ pairsList n ↔ p.1 < p.2 ∧ p.2 < n) ∧
    (argsort ps).Perm (List.range ps.length) ∧
    List.Pairwise
      (fun a b => ps.getD a 0 < ps.getD b 0 ∨ (ps.getD a 0 = ps.getD b 0 ∧ a < b))
      (argsort ps) ∧
    (∀ k, (∃ a ∈ tukeyhsd_annots n ps lims, a.index = k) ↔ k ∈ (argsort ps).take 3) ∧
    (3 ≤ (pairsList n).length → (tukeyhsd_annots n ps lims).length = 3) :=
  ⟨pairsList_length n, pairsList_pairwise n, pairsList_mem n, argsort_perm ps,
    argsort_pairwise ps, fun k => tukey_annotated_iff n ps lims hlen k,
    fun h3 => tukey_annots_length n ps lims hlen h3⟩

/-- Witness for C1 with 4 groups and 6 concrete p-values. -/
theorem tukeyhsd_enumeration_selection_witness :
    (2 ≤ 4) ∧
    ([(1 : ℚ)/2, 1/4, 1/8, 1/16, 1/32, 1/64].length = (pairsList 4).length) ∧
    ((pairsList 4).length = Nat.choose 4 2 ∧
     List.Pairwise (fun p q : ℕ × ℕ => p.1 < q.1 ∨ (p.1 = q.1 ∧ p.2 < q.2)) (pairsList 4) ∧
     (∀ p : ℕ × ℕ, p ∈ pairsList 4 ↔ p.1 < p.2 ∧ p.2 < 4) ∧
     (argsort [(1 : ℚ)/2, 1/4, 1/8, 1/16, 1/32, 1/64]).Perm
       (List.range ([(1 : ℚ)/2, 1/4, 1/8, 1/16, 1/32, 1/64]).length) ∧
     List.Pairwise
       (fun a b => ([(1 : ℚ)/2, 1/4, 1/8, 1/16, 1/32, 1/64]).getD a 0 <
             ([(1 : ℚ)/2, 1/4, 1/8, 1/16, 1/32, 1/64]).getD b 0 ∨
           (([(1 : ℚ)/2, 1/4, 1/8, 1/16, 1/32, 1/64]).getD a 0 =
             ([(1 : ℚ)/2, 1/4, 1/8, 1/16, 1/32, 1/64]).getD b 0 ∧ a < b))
       (argsort [(1 : ℚ)/2, 1/4, 1/8, 1/16, 1/32, 1/64]) ∧
     (∀ k, (∃ a ∈ tukeyhsd_annots 4 [(1 : ℚ)/2, 1/4, 1/8, 1/16, 1/32, 1/64] (0, 1),
         a.index = k) ↔ k ∈ (argsort [(1 : ℚ)/2, 1/4, 1/8, 1/16, 1/32, 1/64]).take 3) ∧
     (3 ≤ (pairsList 4).length →
       (tukeyhsd_annots 4 [(1 : ℚ)/2, 1/4, 1/8, 1/16, 1/32, 1/64] (0, 1)).length = 3)) :=
  ⟨by norm_num, rfl,
    tukeyhsd_enumeration_selection 4 (by norm_num) [(1 : ℚ)/2, 1/4, 1/8, 1/16, 1/32, 1/64]
      (0, 1) rfl⟩

/-- C7: every annotation's horizontal connecting line sits at
`lims[1] + 0.2 * index * (lims[1] - lims[0])`, where `index` is the pair's
position in the full row-major enumeration of all pairs (recovered here as
the position of `(i, j)` in `pairsList n`), not its significance rank. -/
theorem tukeyhsd_line_offset (n : ℕ) (ps : List ℚ) (lims : ℚ × ℚ)
    (a : TukeyAnnot) (ha : a ∈ tukeyhsd_annots n ps lims) :
    (pairsList n)[a.index]? = some (a.i, a.j) ∧
    a.lineY = lims.2 + 0.2 * (a.index : ℚ) * (lims.2 - lims.1) := by
  rw [tukeyhsd_annots, List.mem_map] at ha
  obtain ⟨kp, hkp, rfl⟩ := ha
  rw [List.mem_filter] at hkp
  have h1 := List.mem_enum_iff_getElem?.mp hkp.1
  exact ⟨by simpa using h1, rfl⟩

lemma tukey_annots_two_groups :
    tukeyhsd_annots 2 [(1 : ℚ)/2] (0, 1)
      = [⟨0, 1, 0, (1 : ℚ) + 0.2 * ((0 : ℕ) : ℚ) * (1 - 0)⟩] := by
  have hpairs : pairsList 2 = [(0, 1)] := rfl
  have hpos : pos_p_values [(1 : ℚ)/2] = [0] := by
    rw [pos_p_values, argsort]
    rw [show ([(1 : ℚ)/2]).length = 1 from rfl]
    rw [show List.range 1 = [0] from rfl, List.mergeSort_singleton]
    rfl
  rw [tukeyhsd_annots, hpairs, hpos]
  rfl

/-- Witness for C7: with 2 groups, one p-value `1/2` and y-limits `(0, 1)`,
the single annotation is the pair `(0, 1)` at enumeration index 0 with its
line at `1 + 0.2 * 0 * (1 - 0)`. -/
theorem tukeyhsd_line_offset_witness :
    ((⟨0, 1, 0, (1 : ℚ) + 0.2 * ((0 : ℕ) : ℚ) * (1 - 0)⟩ : TukeyAnnot) ∈
        tukeyhsd_annots 2 [(1 : ℚ)/2] (0, 1)) ∧
    (pairsList 2)[(0 : ℕ)]? = some (0, 1) ∧
    (1 : ℚ) + 0.2 * ((0 : ℕ) : ℚ) * (1 - 0)
      = (1 : ℚ) + 0.2 * ((0 : ℕ) : ℚ) * (1 - 0) := by
  have hmem : (⟨0, 1, 0, (1 : ℚ) + 0.2 * ((0 : ℕ) : ℚ) * (1 - 0)⟩ : TukeyAnnot) ∈
      tukeyhsd_annots 2 [(1 : ℚ)/2] (0, 1) := by
    rw [tukey_annots_two_groups]
    exact List.mem_singleton_self _
  exact ⟨hmem, (tukeyhsd_line_offset 2 [(1 : ℚ)/2] (0, 1) _ hmem).1,
    (tukeyhsd_line_offset 2 [(1 : ℚ)/2] (0, 1) _ hmem).2⟩

/-- C10: with 2 or 3 groups (fewer than 4 pairs), taking the first 3
positions of the p-value ordering truncates to the available pairs and
every pair is annotated. -/
theorem tukeyhsd_truncates (n : ℕ) (hn : n = 2 ∨ n = 3) (ps : List ℚ)
    (lims : ℚ × ℚ) (hlen : ps.length = (pairsList n).length) (k : ℕ)
    (hk : k < (pairsList n).length) :
    ∃ a ∈ tukeyhsd_annots n ps lims, a.index = k := by
  rw [tukey_annotated_iff n ps lims hlen k]
  have hle : (pairsList n).length ≤ 3 := by
    rcases hn with rfl | rfl
    · rw [pairsList_length]
      decide
    · rw [pairsList_length]
      decide
  have harg : (argsort ps).length = ps.length := by
    rw [(argsort_perm ps).length_eq, List.length_range]
  rw [pos_p_values, List.take_of_length_le (by omega : (argsort ps).length ≤ 3)]
  rw [(argsort_perm ps).mem_iff, List.mem_range]
  omega

/-- Witness for C10: 2 groups, a single p-value, a single pair, annotated. -/
theorem tukeyhsd_truncates_witness :
    ((2 : ℕ) = 2 ∨ (2 : ℕ) = 3) ∧
    ([(1 : ℚ)/2].length = (pairsList 2).length) ∧
    (0 < (pairsList 2).length) ∧
    ∃ a ∈ tukeyhsd_annots 2 [(1 : ℚ)/2] (0, 1), a.index = 0 :=
  ⟨Or.inl rfl, rfl, by decide,
    tukeyhsd_truncates 2 (Or.inl rfl) [(1 : ℚ)/2] (0, 1) rfl 0 (by decide)⟩
